import Mathlib

/-!
# RSA key derivation and textbook encryption (`src/encrypt/main.c`)

A shallow embedding of `rsa_keys`, `encrypt`, `decrypt` and the display
harness of `main.c`.  The values of type `mpz_t` are GMP integers, that
is unbounded signed integers, and are embedded as `Int`.  The GMP
primitives that the program calls are embedded after the GMP manual; the
functions of `main.c` are embedded statement by statement on top of them.
-/

namespace RSA

/-! ## GMP primitives -/

/-- Product of two integers, `mpz_mul (rop, op1, op2)`. -/
def mpz_mul (op1 op2 : Int) : Int := op1 * op2

/-- Difference of an integer and an unsigned word, `mpz_sub_ui (rop, op1, op2)`. -/
def mpz_sub_ui (op1 : Int) (op2 : Nat) : Int := op1 - op2

/-- Least common multiple, `mpz_lcm`: never negative, whatever the signs of
the operands, and zero when either operand is zero. -/
def mpz_lcm (op1 op2 : Int) : Int := (Int.lcm op1 op2 : Nat)

/-- Greatest common divisor, `mpz_gcd`: never negative, and zero only when
both operands are zero. -/
def mpz_gcd (op1 op2 : Int) : Int := (Int.gcd op1 op2 : Nat)

/-- Three-way comparison, `mpz_cmp`: positive, zero or negative as `op1` is
greater than, equal to or less than `op2`. -/
def mpz_cmp (op1 op2 : Int) : Int :=
  if op1 < op2 then -1 else if op1 = op2 then 0 else 1

/-- Three-way comparison with an unsigned word, `mpz_cmp_ui`. -/
def mpz_cmp_ui (op1 : Int) (op2 : Nat) : Int := mpz_cmp op1 op2

/-- Remainder, `mpz_mod (r, n, d)`: the sign of the divisor is ignored and
the result is never negative.  A zero divisor is a division by zero in
GMP; `rsa_keys` reaches this call only with a divisor greater than one. -/
def mpz_mod (n d : Int) : Int := n % d

/-- The remainder sequence of the extended Euclidean algorithm.  The state
is two consecutive remainders `r0`, `r1` and the cofactors `s0`, `s1` of
the first operand that belong to them; the result is the last non-zero
remainder and its cofactor. -/
def gcdextLoop : Nat → Int → Int → Int → Int → Int × Int
  | 0, r0, _, s0, _ => (r0, s0)
  | fuel + 1, r0, r1, s0, s1 =>
      if r1 = 0 then (r0, s0)
      else gcdextLoop fuel r1 (r0 % r1) s1 (s0 - r0 / r1 * s1)

/-- The pair `(g, s)` of `mpz_gcdext (g, s, NULL, a, b)`, with
`g = gcd (a, b)` and `a * s ≡ g` modulo `b`. -/
def mpz_gcdext (a b : Int) : Int × Int :=
  gcdextLoop (b.natAbs + 1) a b 1 0

/-- Modular inverse, `mpz_invert (rop, op1, op2)`.  When the inverse
exists the call returns non-zero and `rop` is the inverse in the range
`0 <= rop < abs (op2)`; when there is none it returns zero and `rop` is
undefined, which is `none` here, as is the undefined case `op2 = 0`. -/
def mpz_invert (op1 op2 : Int) : Option Int :=
  if op2 = 0 then none
  else if mpz_gcd op1 op2 = 1 then some ((mpz_gcdext op1 op2).2 % op2)
  else none

/-- Square-and-multiply loop of modular exponentiation: `acc` is the
product collected so far, `b` the current square and `e` the part of the
exponent still to be consumed, lowest bit first. -/
def powmLoop : Nat → Int → Nat → Int → Int → Int
  | 0, _, _, _, acc => acc
  | fuel + 1, b, e, m, acc =>
      if e = 0 then acc
      else powmLoop fuel (b * b % m) (e / 2) m (if e % 2 = 1 then acc * b % m else acc)

/-- Modular exponentiation, `mpz_powm (rop, base, exp, mod)`: `base` raised
to `exp` modulo `mod`, never negative.  A zero modulus raises a division by
zero (`none`).  A negative exponent is supported when `base` has an inverse
modulo `mod`, and raises a division by zero otherwise. -/
def mpz_powm (base exp mod : Int) : Option Int :=
  if mod = 0 then none
  else if 0 ≤ exp then
    some (powmLoop exp.toNat (base % mod) exp.toNat mod (1 % mod))
  else
    match mpz_invert base mod with
    | none => none
    | some inv => some (powmLoop (-exp).toNat inv (-exp).toNat mod (1 % mod))

/-! ## The program -/

/-- The ways in which a run of the program stops early: one constructor
for each `assert` of `main.c`, and the two ways in which a GMP call made
by the program has no defined result. -/
inductive Failure where
  /-- Assertion `assert(mpz_cmp_ui(e, 1) > 0)`: e must be bigger than 1. -/
  | eNotBiggerThanOne
  /-- Assertion `assert(mpz_cmp(lambda, e) > 0)`: e must be smaller than lambda. -/
  | eNotSmallerThanLambda
  /-- Assertion `assert(mpz_cmp_ui(gcd, 1) == 0)`: GCD(e, lambda) must be 1. -/
  | gcdNotOne
  /-- No inverse was found by `mpz_invert`, which left `d` undefined. -/
  | inverseUndefined
  /-- Assertion `assert(mpz_cmp_ui(mod, 1) == 0)`: e * d MOD lambda must be 1. -/
  | productNotOne
  /-- Division by zero raised by `mpz_powm`. -/
  | divideByZero
  /-- Assertion `assert(mpz_cmp(message, decrypted) == 0)`: the decrypted message
  must be equal to the original. -/
  | decryptedNotOriginal
  deriving DecidableEq, Repr

/-- Result of a run: a value, or the failure that stopped it. -/
inductive Outcome (α : Type) where
  | ok (value : α)
  | failed (failure : Failure)
  deriving DecidableEq, Repr

/-- The value `lambda` of `rsa_keys`: `p_1 = p - 1`, `q_1 = q - 1`,
`lambda = lcm (p_1, q_1)`. -/
def rsa_lambda (p q : Int) : Int :=
  let p_1 := mpz_sub_ui p 1
  let q_1 := mpz_sub_ui q 1
  mpz_lcm p_1 q_1

/-- Calculation of the RSA keys, `rsa_keys (n, d, p, q, e)`: the outputs
are the pair `(n, d)`. -/
def rsa_keys (p q e : Int) : Outcome (Int × Int) :=
  let n := mpz_mul p q
  let lambda := rsa_lambda p q
  if ¬ (mpz_cmp_ui e 1 > 0) then .failed .eNotBiggerThanOne
  else if ¬ (mpz_cmp lambda e > 0) then .failed .eNotSmallerThanLambda
  else
    let gcd := mpz_gcd e lambda
    if ¬ (mpz_cmp_ui gcd 1 = 0) then .failed .gcdNotOne
    else
      match mpz_invert e lambda with
      | none => .failed .inverseUndefined
      | some d =>
          let mul := mpz_mul e d
          let mod := mpz_mod mul lambda
          if ¬ (mpz_cmp_ui mod 1 = 0) then .failed .productNotOne
          else .ok (n, d)

/-- RSA encryption: one call of `mpz_powm`. -/
def encrypt (message e n : Int) : Option Int := mpz_powm message e n

/-- RSA decryption: one call of `mpz_powm`. -/
def decrypt (encrypted d n : Int) : Option Int := mpz_powm encrypted d n

/-- Initialisation from an unsigned word, `mpz_init_set_ui (rop, op)`: the
operand is an `unsigned long` of 64 bits. -/
def mpz_init_set_ui (op : Nat) : Int := (op % 2 ^ 64 : Nat)

/-- White space in the sense of `isspace` of the C locale. -/
def isspace (c : Char) : Bool :=
  c = ' ' || c = '\t' || c = '\n' || c = '\x0b' || c = '\x0c' || c = '\r'

/-- Digits of a base-10 numeral, most significant first, added to the
value `acc` read so far; white space between the digits is skipped and any
other character makes the numeral invalid. -/
def strDigits : List Char → Nat → Option Nat
  | [], acc => some acc
  | c :: cs, acc =>
      if isspace c then strDigits cs acc
      else if '0' ≤ c ∧ c ≤ '9' then strDigits cs (10 * acc + (c.toNat - '0'.toNat))
      else none

/-- Test for a decimal digit at the head of the text still to be read. -/
def startsWithDigit : List Char → Bool
  | [] => false
  | c :: _ => decide ('0' ≤ c ∧ c ≤ '9')

/-- Conversion of a base-10 numeral, `mpz_set_str (rop, str, 10)`: leading
white space is skipped, a minus sign may follow, and a digit has to come
next; after it white space is ignored and every other character has to be
a digit.  `none` is the return value `-1` of an invalid numeral. -/
def mpz_set_str (str : List Char) : Option Int :=
  match str.dropWhile isspace with
  | '-' :: rest =>
      if startsWithDigit rest then (strDigits rest 0).map fun v => -(v : Int)
      else none
  | body =>
      if startsWithDigit body then (strDigits body 0).map fun v => (v : Int)
      else none

/-- Initialisation from a base-10 numeral, `mpz_init_set_str (rop, str, 10)`:
`rop` is initialised to zero and keeps that value when the numeral is
invalid. -/
def mpz_init_set_str (str : String) : Int :=
  (mpz_set_str str.data).getD 0

/-- The checks of `display_gmp (message, n, e, d)`: the outputs are the
pair `(encrypted, decrypted)`, printed by the function. -/
def display_gmp (message n e d : Int) : Outcome (Int × Int) :=
  match encrypt message e n with
  | none => .failed .divideByZero
  | some encrypted =>
      match decrypt encrypted d n with
      | none => .failed .divideByZero
      | some decrypted =>
          if ¬ (mpz_cmp message decrypted = 0) then .failed .decryptedNotOriginal
          else .ok (encrypted, decrypted)

/-- The run `display_num (msg, pi, qi, ei)` on unsigned 64-bit words. -/
def display_num (msg pi qi ei : Nat) : Outcome (Int × Int) :=
  let p := mpz_init_set_ui pi
  let q := mpz_init_set_ui qi
  let e := mpz_init_set_ui ei
  let original := mpz_init_set_ui msg
  match rsa_keys p q e with
  | .failed f => .failed f
  | .ok (n, d) => display_gmp original n e d

/-- The run `display_str (msg, pi, qi, ei)` on base-10 numerals. -/
def display_str (msg pi qi ei : String) : Outcome (Int × Int) :=
  let p := mpz_init_set_str pi
  let q := mpz_init_set_str qi
  let e := mpz_init_set_str ei
  let original := mpz_init_set_str msg
  match rsa_keys p q e with
  | .failed f => .failed f
  | .ok (n, d) => display_gmp original n e d

/-- Sequencing of two statements: the second runs when the first has not
stopped the program. -/
def andThen {α β : Type} (first : Outcome α) (next : Outcome β) : Outcome β :=
  match first with
  | .failed f => .failed f
  | .ok _ => next

/-- The program `main`: the eight runs in the order of the source, and the
return value `0` when none of them stops the program. -/
def main : Outcome Int :=
  andThen (display_num 65 61 53 17) <|
  andThen (display_gmp (mpz_init_set_ui 123) (mpz_init_set_ui 323) (mpz_init_set_ui 5)
    (mpz_init_set_ui 29)) <|
  andThen (display_num 123 13 19 17) <|
  andThen (display_num 67890 541 461 107) <|
  andThen (display_num 123456 1181 929 173) <|
  andThen (display_num 123456 1181 929 1987) <|
  andThen (display_num 123456 1181 929 17) <|
  andThen (display_str "1111119999999999911111111" "162259276829213363391578010288127"
    "618970019642690137449562111" "170141183460469231731687303715884105727") <|
  .ok 0

/-! ## Properties of the primitives -/

/-- The square-and-multiply loop multiplies the accumulator by `b ^ e`
modulo `m`, when the fuel covers the exponent and the accumulator is
reduced. -/
theorem powmLoop_eq (fuel : Nat) : ∀ (b : Int) (e : Nat) (m acc : Int),
    e ≤ fuel → acc % m = acc → powmLoop fuel b e m acc = acc * b ^ e % m := by
  induction fuel with
  | zero =>
    intro b e m acc he hacc
    have e0 : e = 0 := Nat.le_zero.mp he
    subst e0
    simp [powmLoop, hacc]
  | succ fuel ih =>
    intro b e m acc he hacc
    unfold powmLoop
    by_cases e0 : e = 0
    · subst e0; simp [hacc]
    · rw [if_neg e0]
      have hlt : e / 2 ≤ fuel := by omega
      have hsq : (b * b % m) ^ (e / 2) ≡ b ^ (2 * (e / 2)) [ZMOD m] := by
        rw [pow_mul, pow_two]
        exact (Int.mod_modEq _ _).pow _
      by_cases hodd : e % 2 = 1
      · rw [if_pos hodd, ih _ _ _ _ hlt (Int.emod_emod_of_dvd _ (dvd_refl m))]
        have hmul : acc * b % m * (b * b % m) ^ (e / 2) ≡ acc * b ^ e [ZMOD m] := by
          have h1 : acc * b % m * (b * b % m) ^ (e / 2)
              ≡ acc * b * b ^ (2 * (e / 2)) [ZMOD m] :=
            (Int.mod_modEq _ _).mul hsq
          have h2 : acc * b * b ^ (2 * (e / 2)) = acc * b ^ e := by
            have he2 : e = 2 * (e / 2) + 1 := by omega
            conv_rhs => rw [he2]
            ring
          rwa [h2] at h1
        exact hmul
      · rw [if_neg hodd, ih _ _ _ _ hlt hacc]
        have hmul : acc * (b * b % m) ^ (e / 2) ≡ acc * b ^ e [ZMOD m] := by
          have h1 : acc * (b * b % m) ^ (e / 2) ≡ acc * b ^ (2 * (e / 2)) [ZMOD m] :=
            (Int.ModEq.refl acc).mul hsq
          have he2 : 2 * (e / 2) = e := by omega
          rwa [he2] at h1
        exact hmul

/-- For a natural exponent and a non-zero modulus `mpz_powm` is the power
reduced modulo the modulus. -/
theorem mpz_powm_natCast (base : Int) (exp : Nat) (mod : Int) (hmod : mod ≠ 0) :
    mpz_powm base exp mod = some (base ^ exp % mod) := by
  unfold mpz_powm
  rw [if_neg hmod, if_pos (Int.ofNat_nonneg exp)]
  simp only [Int.toNat_ofNat]
  rw [powmLoop_eq _ _ _ _ _ (le_refl _) (Int.emod_emod_of_dvd _ (dvd_refl mod))]
  congr 1
  have h : 1 % mod * (base % mod) ^ exp ≡ base ^ exp [ZMOD mod] := by
    have := (Int.mod_modEq 1 mod).mul ((Int.mod_modEq base mod).pow exp)
    simpa using this
  exact h

/-- One division step of the Euclidean algorithm keeps the greatest common
divisor. -/
theorem gcd_emod_step (r0 r1 : Int) : Int.gcd r1 (r0 % r1) = Int.gcd r0 r1 := by
  apply Nat.dvd_antisymm
  · have h1 : (Int.gcd r1 (r0 % r1) : Int) ∣ r1 := Int.gcd_dvd_left
    have h2 : (Int.gcd r1 (r0 % r1) : Int) ∣ r0 % r1 := Int.gcd_dvd_right
    have h3 : (Int.gcd r1 (r0 % r1) : Int) ∣ r0 := by
      have := dvd_add (Dvd.dvd.mul_right h1 (r0 / r1)) h2
      rwa [Int.ediv_add_emod] at this
    exact Int.natCast_dvd_natCast.mp (Int.dvd_gcd h3 h1)
  · have h1 : (Int.gcd r0 r1 : Int) ∣ r0 := Int.gcd_dvd_left
    have h2 : (Int.gcd r0 r1 : Int) ∣ r1 := Int.gcd_dvd_right
    have h3 : (Int.gcd r0 r1 : Int) ∣ r0 % r1 := by
      have e1 : r0 % r1 = r0 - r1 * (r0 / r1) := by
        have := Int.emod_add_ediv r0 r1
        linarith
      rw [e1]
      exact dvd_sub h1 (Dvd.dvd.mul_right h2 (r0 / r1))
    exact Int.natCast_dvd_natCast.mp (Int.dvd_gcd h2 h3)

/-- Invariant of the extended Euclidean loop: with both remainders congruent
to their cofactor times `a` modulo `n`, the result `(g, s)` has `g` the
greatest common divisor of the two remainders and `g ≡ s * a`. -/
theorem gcdextLoop_spec (a n : Int) (fuel : Nat) : ∀ (r0 r1 s0 s1 : Int),
    r1.natAbs < fuel → 0 ≤ r1 → (r1 = 0 → 0 ≤ r0) →
    r0 ≡ s0 * a [ZMOD n] → r1 ≡ s1 * a [ZMOD n] →
    (gcdextLoop fuel r0 r1 s0 s1).1 = (Int.gcd r0 r1 : Nat) ∧
    (gcdextLoop fuel r0 r1 s0 s1).1 ≡ (gcdextLoop fuel r0 r1 s0 s1).2 * a [ZMOD n] := by
  induction fuel with
  | zero => intro r0 r1 s0 s1 h; omega
  | succ fuel ih =>
    intro r0 r1 s0 s1 hfuel hr1 hr0 h0 h1
    unfold gcdextLoop
    by_cases hz : r1 = 0
    · rw [if_pos hz]
      subst hz
      refine ⟨?_, h0⟩
      simp only [Int.gcd_zero_right]
      exact (Int.natAbs_of_nonneg (hr0 rfl)).symm
    · rw [if_neg hz]
      have hpos : 0 < r1 := lt_of_le_of_ne hr1 (Ne.symm hz)
      have hrem0 : 0 ≤ r0 % r1 := Int.emod_nonneg r0 hz
      have hremlt : r0 % r1 < r1 := Int.emod_lt_of_pos r0 hpos
      have hfuel2 : (r0 % r1).natAbs < fuel := by omega
      have hstep : r0 % r1 ≡ (s0 - r0 / r1 * s1) * a [ZMOD n] := by
        have e1 : r0 % r1 = r0 - r0 / r1 * r1 := by
          have := Int.emod_add_ediv r0 r1
          linarith [mul_comm r1 (r0 / r1)]
        have e2 : (s0 - r0 / r1 * s1) * a = s0 * a - r0 / r1 * (s1 * a) := by ring
        rw [e1, e2]
        exact h0.sub ((Int.ModEq.refl _).mul h1)
      have := ih r1 (r0 % r1) s1 (s0 - r0 / r1 * s1) hfuel2 hrem0
        (fun _ => le_of_lt hpos) h1 hstep
      rw [gcd_emod_step] at this
      exact this

/-- For a positive modulus and a coprime operand `mpz_invert` returns the
inverse in the range of the reduced residues. -/
theorem mpz_invert_spec (a n : Int) (hn : 0 < n) (hg : Int.gcd a n = 1) :
    ∃ d, mpz_invert a n = some d ∧ 0 ≤ d ∧ d < n ∧ a * d % n = 1 % n := by
  have hne : n ≠ 0 := ne_of_gt hn
  refine ⟨(mpz_gcdext a n).2 % n, ?_, Int.emod_nonneg _ hne, Int.emod_lt_of_pos _ hn, ?_⟩
  · unfold mpz_invert mpz_gcd
    rw [if_neg hne, hg]
    simp
  · have hspec := gcdextLoop_spec a n (n.natAbs + 1) a n 1 0 (Nat.lt_succ_self _)
      (le_of_lt hn) (fun h => absurd h hne) (by simp [Int.ModEq]) (by simp [Int.ModEq])
    obtain ⟨hg1, hg2⟩ := hspec
    rw [hg] at hg1
    have hg3 : (mpz_gcdext a n).1 = 1 := by simpa [mpz_gcdext] using hg1
    have hg4 : (mpz_gcdext a n).1 ≡ (mpz_gcdext a n).2 * a [ZMOD n] := hg2
    rw [hg3] at hg4
    have h5 : a * ((mpz_gcdext a n).2 % n) ≡ a * (mpz_gcdext a n).2 [ZMOD n] :=
      (Int.ModEq.refl a).mul (Int.mod_modEq _ _)
    have h6 : a * (mpz_gcdext a n).2 ≡ 1 [ZMOD n] := by
      rw [mul_comm]; exact hg4.symm
    exact h5.trans h6

theorem mpz_cmp_pos_iff (a b : Int) : mpz_cmp a b > 0 ↔ b < a := by
  unfold mpz_cmp
  split_ifs with h1 h2
  · constructor
    · intro h; exact absurd h (by decide)
    · intro h; omega
  · constructor
    · intro h; exact absurd h (by decide)
    · intro h; omega
  · constructor
    · intro _; omega
    · intro _; decide

theorem mpz_cmp_eq_zero_iff (a b : Int) : mpz_cmp a b = 0 ↔ a = b := by
  unfold mpz_cmp
  split_ifs with h1 h2
  · constructor
    · intro h; exact absurd h (by decide)
    · intro h; omega
  · simp [h2]
  · constructor
    · intro h; exact absurd h (by decide)
    · intro h; exact absurd h h2

/-- The value `lambda` of `rsa_keys` is the least common multiple of
`p - 1` and `q - 1`. -/
theorem rsa_lambda_eq (p q : Int) : rsa_lambda p q = (Int.lcm (p - 1) (q - 1) : Nat) := by
  simp [rsa_lambda, mpz_lcm, mpz_sub_ui]

/-- The outcome of `rsa_keys` when the three validations pass: the key
is returned, with the private exponent a reduced inverse of `e`. -/
theorem rsa_keys_of_valid (p q e : Int) (h1 : 1 < e) (h2 : e < rsa_lambda p q)
    (h3 : Int.gcd e (rsa_lambda p q) = 1) :
    ∃ d, rsa_keys p q e = .ok (p * q, d) ∧ 0 ≤ d ∧ d < rsa_lambda p q ∧
      e * d % rsa_lambda p q = 1 := by
  have hpos : 0 < rsa_lambda p q := by omega
  obtain ⟨d, hd, hd0, hdlt, hmod⟩ := mpz_invert_spec e (rsa_lambda p q) hpos h3
  have hone : (1 : Int) % rsa_lambda p q = 1 := Int.emod_eq_of_lt (by decide) (by omega)
  rw [hone] at hmod
  refine ⟨d, ?_, hd0, hdlt, hmod⟩
  unfold rsa_keys
  simp only [mpz_cmp_ui, mpz_cmp_pos_iff, mpz_cmp_eq_zero_iff, mpz_gcd, mpz_mul, mpz_mod,
    hd, h3, hmod]
  simp [h1, h2]

/-- Fermat for one prime factor: a power with exponent congruent to one
modulo a multiple of `r - 1` fixes every residue modulo the prime `r`. -/
theorem pow_modEq_self_of_prime (r : Nat) (hr : r.Prime) (l k : Nat) (hl : r - 1 ∣ l)
    (hk : k % l = 1) (m : Int) : m ^ k ≡ m [ZMOD (r : Int)] := by
  haveI : Fact r.Prime := ⟨hr⟩
  rw [← ZMod.intCast_eq_intCast_iff]
  push_cast
  have hk2 : k = l * (k / l) + 1 := by
    have := Nat.div_add_mod k l
    omega
  obtain ⟨c, hc⟩ := hl
  by_cases hm : ((m : ZMod r)) = 0
  · rw [hm, hk2]
    simp
  · rw [hk2, pow_succ, hc, mul_assoc, pow_mul, ZMod.pow_card_sub_one_eq_one hm]
    simp

/-- The RSA identity for two distinct primes and an exponent congruent to
one modulo `lcm (p - 1, q - 1)`. -/
theorem pow_modEq_self_of_primes (p q : Nat) (hp : p.Prime) (hq : q.Prime) (hne : p ≠ q)
    (k : Nat) (hk : k % Nat.lcm (p - 1) (q - 1) = 1) (m : Int) :
    m ^ k ≡ m [ZMOD ((p : Int) * (q : Int))] := by
  have h1 := pow_modEq_self_of_prime p hp _ k (Nat.dvd_lcm_left (p - 1) (q - 1)) hk m
  have h2 := pow_modEq_self_of_prime q hq _ k (Nat.dvd_lcm_right (p - 1) (q - 1)) hk m
  have hcop : (p : Int).natAbs.Coprime (q : Int).natAbs := by
    simpa using (Nat.coprime_primes hp hq).mpr hne
  exact (Int.modEq_and_modEq_iff_modEq_mul hcop).mp ⟨h1, h2⟩

/-! ## Outcomes of `rsa_keys` -/

/-- The first assertion of `rsa_keys` fails for every `e` that is not
bigger than one. -/
theorem rsa_keys_of_not_gt_one (p q e : Int) (h1 : ¬ 1 < e) :
    rsa_keys p q e = .failed .eNotBiggerThanOne := by
  unfold rsa_keys
  simp only [mpz_cmp_ui, mpz_cmp_pos_iff]
  simp [h1]

/-- The second assertion of `rsa_keys` fails when the first passes and `e`
is not smaller than `lambda`. -/
theorem rsa_keys_of_not_lt_lambda (p q e : Int) (h1 : 1 < e) (h2 : ¬ e < rsa_lambda p q) :
    rsa_keys p q e = .failed .eNotSmallerThanLambda := by
  unfold rsa_keys
  simp only [mpz_cmp_ui, mpz_cmp_pos_iff]
  simp [h1, h2]

/-- The third assertion of `rsa_keys` fails when the first two pass and `e`
is not coprime to `lambda`. -/
theorem rsa_keys_of_gcd_ne_one (p q e : Int) (h1 : 1 < e) (h2 : e < rsa_lambda p q)
    (h3 : Int.gcd e (rsa_lambda p q) ≠ 1) :
    rsa_keys p q e = .failed .gcdNotOne := by
  unfold rsa_keys
  simp only [mpz_cmp_ui, mpz_cmp_pos_iff, mpz_cmp_eq_zero_iff, mpz_gcd]
  simp [h1, h2, h3]

/-- Every outcome of `rsa_keys` in terms of the three validations. -/
theorem rsa_keys_cases (p q e : Int) :
    (¬ 1 < e ∧ rsa_keys p q e = .failed .eNotBiggerThanOne) ∨
    (1 < e ∧ ¬ e < rsa_lambda p q ∧ rsa_keys p q e = .failed .eNotSmallerThanLambda) ∨
    (1 < e ∧ e < rsa_lambda p q ∧ Int.gcd e (rsa_lambda p q) ≠ 1 ∧
      rsa_keys p q e = .failed .gcdNotOne) ∨
    (1 < e ∧ e < rsa_lambda p q ∧ Int.gcd e (rsa_lambda p q) = 1 ∧
      ∃ d, rsa_keys p q e = .ok (p * q, d) ∧ 0 ≤ d ∧ d < rsa_lambda p q ∧
        e * d % rsa_lambda p q = 1) := by
  by_cases h1 : 1 < e
  · by_cases h2 : e < rsa_lambda p q
    · by_cases h3 : Int.gcd e (rsa_lambda p q) = 1
      · exact Or.inr (Or.inr (Or.inr ⟨h1, h2, h3, rsa_keys_of_valid p q e h1 h2 h3⟩))
      · exact Or.inr (Or.inr (Or.inl ⟨h1, h2, h3, rsa_keys_of_gcd_ne_one p q e h1 h2 h3⟩))
    · exact Or.inr (Or.inl ⟨h1, h2, rsa_keys_of_not_lt_lambda p q e h1 h2⟩)
  · exact Or.inl ⟨h1, rsa_keys_of_not_gt_one p q e h1⟩

/-- A key returned by `rsa_keys` has the modulus `p * q`. -/
theorem rsa_keys_ok_modulus (p q e n d : Int) (h : rsa_keys p q e = .ok (n, d)) :
    n = p * q := by
  rcases rsa_keys_cases p q e with ⟨_, hf⟩ | ⟨_, _, hf⟩ | ⟨_, _, _, hf⟩ | ⟨_, _, _, d', hd, _⟩
  · rw [hf] at h; cases h
  · rw [hf] at h; cases h
  · rw [hf] at h; cases h
  · rw [hd] at h
    injection h with h
    exact (congrArg Prod.fst h).symm

/-- The least common multiple of the predecessors of two positive naturals,
taken over the integers. -/
theorem lcm_pred_cast (p q : Nat) (hp : 1 ≤ p) (hq : 1 ≤ q) :
    Int.lcm ((p : Int) - 1) ((q : Int) - 1) = Nat.lcm (p - 1) (q - 1) := by
  have e1 : ((p : Int) - 1) = ((p - 1 : Nat) : Int) := by omega
  have e2 : ((q : Int) - 1) = ((q - 1 : Nat) : Int) := by omega
  rw [e1, e2, Int.lcm]
  simp

/-- Round trip through `encrypt` and `decrypt` for distinct primes and a pair
of exponents whose product is congruent to one modulo `lcm (p - 1, q - 1)`. -/
theorem roundtrip_of_inverse (p q : Nat) (hp : p.Prime) (hq : q.Prime) (hne : p ≠ q)
    (e d : Int) (he : 0 ≤ e) (hd : 0 ≤ d)
    (hed : e * d % (Nat.lcm (p - 1) (q - 1) : Nat) = 1)
    (m : Int) (hm0 : 0 ≤ m) (hmn : m < (p : Int) * (q : Int)) :
    ∃ c, encrypt m e ((p : Int) * (q : Int)) = some c ∧
      decrypt c d ((p : Int) * (q : Int)) = some m := by
  have hn : (p : Int) * (q : Int) ≠ 0 := by
    have := hp.pos
    have := hq.pos
    positivity
  obtain ⟨e', rfl⟩ := Int.eq_ofNat_of_zero_le he
  obtain ⟨d', rfl⟩ := Int.eq_ofNat_of_zero_le hd
  refine ⟨m ^ e' % ((p : Int) * (q : Int)), mpz_powm_natCast m e' _ hn, ?_⟩
  unfold decrypt
  rw [mpz_powm_natCast _ d' _ hn]
  congr 1
  have hk : (e' * d') % Nat.lcm (p - 1) (q - 1) = 1 := by exact_mod_cast hed
  have h1 : (m ^ e' % ((p : Int) * (q : Int))) ^ d' ≡ m ^ (e' * d') [ZMOD (p : Int) * (q : Int)] := by
    rw [pow_mul]
    exact (Int.mod_modEq _ _).pow _
  have h2 := pow_modEq_self_of_primes p q hp hq hne (e' * d') hk m
  have h3 : (m ^ e' % ((p : Int) * (q : Int))) ^ d' % ((p : Int) * (q : Int))
      = m % ((p : Int) * (q : Int)) := h1.trans h2
  rw [h3]
  exact Int.emod_eq_of_lt hm0 hmn

/-! ## The claims -/

/-- Claim C1, as amended: for all distinct primes `p` and `q` and every valid
exponent `e` (`1 < e < lcm (p - 1, q - 1)`, coprime to it), `rsa_keys`
returns a key `(n, d)`, and every message `m` with `0 <= m < n` is
recovered: `decrypt (encrypt (m, e, n), d, n) = m`. -/
theorem rsa_roundtrip_distinct_primes (p q : Nat) (e : Int)
    (hp : p.Prime) (hq : q.Prime) (hne : p ≠ q) (h1 : 1 < e)
    (h2 : e < (Int.lcm ((p : Int) - 1) ((q : Int) - 1) : Nat))
    (h3 : Int.gcd e (Int.lcm ((p : Int) - 1) ((q : Int) - 1) : Nat) = 1) :
    ∃ n d, rsa_keys p q e = .ok (n, d) ∧
      ∀ m : Int, 0 ≤ m → m < n →
        ∃ c, encrypt m e n = some c ∧ decrypt c d n = some m := by
  rw [← rsa_lambda_eq] at h2 h3
  obtain ⟨d, hk, hd0, _, hed⟩ := rsa_keys_of_valid p q e h1 h2 h3
  refine ⟨(p : Int) * (q : Int), d, hk, ?_⟩
  intro m hm0 hmn
  rw [rsa_lambda_eq, lcm_pred_cast p q hp.pos hq.pos] at hed
  exact roundtrip_of_inverse p q hp hq hne e d (by omega) hd0 hed m hm0 hmn

/-- Claim C1, an instance of the amended statement: the primes 61 and 53
with the exponent 17. -/
theorem rsa_roundtrip_distinct_primes_witness :
    ∃ n d, rsa_keys ((61 : Nat) : Int) ((53 : Nat) : Int) 17 = .ok (n, d) ∧
      ∀ m : Int, 0 ≤ m → m < n →
        ∃ c, encrypt m 17 n = some c ∧ decrypt c d n = some m :=
  rsa_roundtrip_distinct_primes 61 53 17 (by norm_num) (by norm_num) (by decide)
    (by decide) (by decide) (by decide)

/-- Claim C1 fails as stated when the two primes are equal: for
`p = q = 5` and `e = 3` every condition of the claim holds, `rsa_keys`
returns `n = 25`, `d = 3`, and the message 2 comes back as 12. -/
theorem rsa_roundtrip_equal_primes_fails :
    Nat.Prime 5 ∧ (1 : Int) < 3 ∧
    (3 : Int) < (Int.lcm (((5 : Nat) : Int) - 1) (((5 : Nat) : Int) - 1) : Nat) ∧
    Int.gcd 3 (Int.lcm (((5 : Nat) : Int) - 1) (((5 : Nat) : Int) - 1) : Nat) = 1 ∧
    rsa_keys ((5 : Nat) : Int) ((5 : Nat) : Int) 3 = .ok (25, 3) ∧
    (0 : Int) ≤ 2 ∧ (2 : Int) < 25 ∧
    encrypt 2 3 25 = some 8 ∧ decrypt 8 3 25 = some 12 ∧
    ¬ ∃ c, encrypt 2 3 25 = some c ∧ decrypt c 3 25 = some 2 := by
  refine ⟨by norm_num, by decide, by decide, by decide, by decide, by decide, by decide,
    by decide, by decide, ?_⟩
  rintro ⟨c, hc, hd⟩
  have h8 : encrypt 2 3 25 = some 8 := by decide
  rw [h8] at hc
  injection hc with hc
  subst hc
  revert hd
  decide

/-- Claim C2: for all primes `p`, `q` and every `e` with
`1 < e < lcm (p - 1, q - 1)` coprime to `lcm (p - 1, q - 1)`, `rsa_keys`
returns a key, so that none of its assertions fails, and the private
exponent `d` satisfies `(e * d) mod lcm (p - 1, q - 1) = 1`. -/
theorem rsa_keys_succeeds_of_primes (p q : Nat) (e : Int)
    (_hp : p.Prime) (_hq : q.Prime) (h1 : 1 < e)
    (h2 : e < (Int.lcm ((p : Int) - 1) ((q : Int) - 1) : Nat))
    (h3 : Int.gcd e (Int.lcm ((p : Int) - 1) ((q : Int) - 1) : Nat) = 1) :
    ∃ n d, rsa_keys p q e = .ok (n, d) ∧
      e * d % (Int.lcm ((p : Int) - 1) ((q : Int) - 1) : Nat) = 1 := by
  rw [← rsa_lambda_eq] at h2 h3 ⊢
  obtain ⟨d, hk, _, _, hed⟩ := rsa_keys_of_valid p q e h1 h2 h3
  exact ⟨_, d, hk, hed⟩

/-- Claim C2 at the primes 13 and 19 with the exponent 17. -/
theorem rsa_keys_succeeds_of_primes_witness :
    ∃ n d, rsa_keys ((13 : Nat) : Int) ((19 : Nat) : Int) 17 = .ok (n, d) ∧
      17 * d % (Int.lcm (((13 : Nat) : Int) - 1) (((19 : Nat) : Int) - 1) : Nat) = 1 :=
  rsa_keys_succeeds_of_primes 13 19 17 (by norm_num) (by norm_num) (by decide)
    (by decide) (by decide)

/-- Claim C3: whenever `rsa_keys` returns a key for `p`, `q` and `e`, its
modulus is `n = p * q`, and every other exponent for which it returns a
key gives the same modulus. -/
theorem rsa_keys_modulus_eq_mul (p q e n d : Int) (h : rsa_keys p q e = .ok (n, d)) :
    n = p * q ∧ ∀ e' n' d', rsa_keys p q e' = .ok (n', d') → n' = n := by
  have hn := rsa_keys_ok_modulus p q e n d h
  refine ⟨hn, ?_⟩
  intro e' n' d' h'
  rw [hn]
  exact rsa_keys_ok_modulus p q e' n' d' h'

/-- Claim C3 at `p = 61`, `q = 53`, `e = 17`. -/
theorem rsa_keys_modulus_eq_mul_witness :
    (3233 : Int) = 61 * 53 ∧ ∀ e' n' d', rsa_keys 61 53 e' = .ok (n', d') → n' = 3233 :=
  rsa_keys_modulus_eq_mul 61 53 17 3233 413 (by decide)

/-- Claim C4: for every `p >= 1`, `q >= 1` and every `e <= 1`, `rsa_keys`
fails at its first assertion, e must be bigger than 1. -/
theorem rsa_keys_invalid_exponent (p q e : Int) (_hp : 1 ≤ p) (_hq : 1 ≤ q) (he : e ≤ 1) :
    rsa_keys p q e = .failed .eNotBiggerThanOne :=
  rsa_keys_of_not_gt_one p q e (not_lt.mpr he)

/-- Claim C4 at `p = 61`, `q = 53`, `e = 1`. -/
theorem rsa_keys_invalid_exponent_witness :
    rsa_keys 61 53 1 = .failed .eNotBiggerThanOne :=
  rsa_keys_invalid_exponent 61 53 1 (by decide) (by decide) (by decide)

/-- Claim C5, as amended: for every `p >= 1`, `q >= 1` and every `e` with
`1 < e < lambda` that is not coprime to `lambda = lcm (p - 1, q - 1)`,
`rsa_keys` fails at its third assertion, GCD(e, lambda) must be 1. -/
theorem rsa_keys_not_coprime (p q e : Int) (_hp : 1 ≤ p) (_hq : 1 ≤ q)
    (h1 : 1 < e) (h2 : e < (Int.lcm (p - 1) (q - 1) : Nat))
    (h3 : Int.gcd e (Int.lcm (p - 1) (q - 1) : Nat) ≠ 1) :
    rsa_keys p q e = .failed .gcdNotOne := by
  rw [← rsa_lambda_eq] at h2 h3
  exact rsa_keys_of_gcd_ne_one p q e h1 h2 h3

/-- Claim C5, as amended, at `p = 5`, `q = 7`, `e = 10`, where
`lambda = 12`. -/
theorem rsa_keys_not_coprime_witness :
    rsa_keys 5 7 10 = .failed .gcdNotOne :=
  rsa_keys_not_coprime 5 7 10 (by decide) (by decide) (by decide) (by decide) (by decide)

/-- Claim C5 fails as stated: for `p = 5`, `q = 7` the exponent `e = 14`
has the factor 2 in common with `lambda = 12`, and `rsa_keys` stops at its
second assertion, before the third is reached. -/
theorem rsa_keys_common_factor_second_assertion :
    (1 : Int) ≤ 5 ∧ (1 : Int) ≤ 7 ∧
    Int.gcd 14 (Int.lcm ((5 : Int) - 1) ((7 : Int) - 1) : Nat) = 2 ∧
    Int.gcd 14 (Int.lcm ((5 : Int) - 1) ((7 : Int) - 1) : Nat) ≠ 1 ∧
    rsa_keys 5 7 14 = .failed .eNotSmallerThanLambda ∧
    rsa_keys 5 7 14 ≠ .failed .gcdNotOne := by
  decide

/-- Claim C6, as amended: for every `p >= 1`, `q >= 1` and every `e` with
`e > 1` and `e >= lambda = lcm (p - 1, q - 1)`, `rsa_keys` fails at its
second assertion, e must be smaller than lambda. -/
theorem rsa_keys_too_large (p q e : Int) (_hp : 1 ≤ p) (_hq : 1 ≤ q)
    (h1 : 1 < e) (h2 : (Int.lcm (p - 1) (q - 1) : Nat) ≤ e) :
    rsa_keys p q e = .failed .eNotSmallerThanLambda := by
  rw [← rsa_lambda_eq] at h2
  exact rsa_keys_of_not_lt_lambda p q e h1 (not_lt.mpr h2)

/-- Claim C6, as amended, at `p = 5`, `q = 7`, `e = 12 = lambda`. -/
theorem rsa_keys_too_large_witness :
    rsa_keys 5 7 12 = .failed .eNotSmallerThanLambda :=
  rsa_keys_too_large 5 7 12 (by decide) (by decide) (by decide) (by decide)

/-- Claim C6 fails as stated: for `p = q = 2` the value of `lambda` is 1,
the exponent `e = 1` is not below it, and `rsa_keys` stops at its first
assertion, before the second is reached. -/
theorem rsa_keys_large_exponent_first_assertion :
    (1 : Int) ≤ 2 ∧ ((Int.lcm ((2 : Int) - 1) ((2 : Int) - 1) : Nat) : Int) ≤ 1 ∧
    rsa_keys 2 2 1 = .failed .eNotBiggerThanOne ∧
    rsa_keys 2 2 1 ≠ .failed .eNotSmallerThanLambda := by
  decide

/-- Claim C7: for every `p >= 1`, `q >= 1` and every `e`, `rsa_keys` returns
a key if and only if `1 < e < lcm (p - 1, q - 1)` and
`gcd (e, lcm (p - 1, q - 1)) = 1`; it never stops because the modular
inverse is missing, nor at the check `(e * d) mod lambda == 1`. -/
theorem rsa_keys_succeeds_iff (p q e : Int) (_hp : 1 ≤ p) (_hq : 1 ≤ q) :
    ((∃ n d, rsa_keys p q e = .ok (n, d)) ↔
      (1 < e ∧ e < (Int.lcm (p - 1) (q - 1) : Nat) ∧
        Int.gcd e (Int.lcm (p - 1) (q - 1) : Nat) = 1)) ∧
    rsa_keys p q e ≠ .failed .inverseUndefined ∧
    rsa_keys p q e ≠ .failed .productNotOne := by
  rw [← rsa_lambda_eq]
  rcases rsa_keys_cases p q e with ⟨h1, hf⟩ | ⟨h1, h2, hf⟩ | ⟨h1, h2, h3, hf⟩ |
    ⟨h1, h2, h3, d, hd, _⟩
  · refine ⟨⟨?_, fun h => absurd h.1 h1⟩, ?_, ?_⟩
    · rintro ⟨n, d, h⟩; rw [hf] at h; cases h
    · rw [hf]; decide
    · rw [hf]; decide
  · refine ⟨⟨?_, fun h => absurd h.2.1 h2⟩, ?_, ?_⟩
    · rintro ⟨n, d, h⟩; rw [hf] at h; cases h
    · rw [hf]; decide
    · rw [hf]; decide
  · refine ⟨⟨?_, fun h => absurd h.2.2 h3⟩, ?_, ?_⟩
    · rintro ⟨n, d, h⟩; rw [hf] at h; cases h
    · rw [hf]; decide
    · rw [hf]; decide
  · refine ⟨⟨fun _ => ⟨h1, h2, h3⟩, fun _ => ⟨_, d, hd⟩⟩, ?_, ?_⟩
    · rw [hd]; intro h; cases h
    · rw [hd]; intro h; cases h

/-- Claim C7 at the composite `p = 4` with `q = 7` and `e = 5`. -/
theorem rsa_keys_succeeds_iff_witness :
    ((∃ n d, rsa_keys 4 7 5 = .ok (n, d)) ↔
      ((1 : Int) < 5 ∧ (5 : Int) < (Int.lcm ((4 : Int) - 1) ((7 : Int) - 1) : Nat) ∧
        Int.gcd 5 (Int.lcm ((4 : Int) - 1) ((7 : Int) - 1) : Nat) = 1)) ∧
    rsa_keys 4 7 5 ≠ .failed .inverseUndefined ∧
    rsa_keys 4 7 5 ≠ .failed .productNotOne :=
  rsa_keys_succeeds_iff 4 7 5 (by decide) (by decide)

/-- Claim C8: for every message `m`, exponent `e` and modulus `n >= 1`,
`encrypt (m, e, n) = (m ^ e) mod n`, and for every ciphertext `c`, exponent
`d` and modulus `n >= 1`, `decrypt (c, d, n) = (c ^ d) mod n`; both are
the same call of the modular exponentiation on their three arguments. -/
theorem encrypt_decrypt_eq_pow_mod (m c : Int) (e d : Nat) (n : Int) (hn : 1 ≤ n) :
    encrypt m e n = some (m ^ e % n) ∧ decrypt c d n = some (c ^ d % n) ∧
    ∀ x y z : Int, encrypt x y z = mpz_powm x y z ∧ decrypt x y z = mpz_powm x y z := by
  have hne : n ≠ 0 := by omega
  exact ⟨mpz_powm_natCast m e n hne, mpz_powm_natCast c d n hne, fun _ _ _ => ⟨rfl, rfl⟩⟩

/-- Claim C8 at the message 65, the ciphertext 2790 and the key
`n = 3233`, `e = 17`, `d = 413`. -/
theorem encrypt_decrypt_eq_pow_mod_witness :
    encrypt 65 ((17 : Nat) : Int) 3233 = some (65 ^ 17 % 3233) ∧
    decrypt 2790 ((413 : Nat) : Int) 3233 = some (2790 ^ 413 % 3233) ∧
    ∀ x y z : Int, encrypt x y z = mpz_powm x y z ∧ decrypt x y z = mpz_powm x y z :=
  encrypt_decrypt_eq_pow_mod 65 2790 17 413 3233 (by decide)

/-- Claim C9: for the Wikipedia example `p = 61`, `q = 53`, `e = 17`,
`rsa_keys` returns `n = 3233` and `d = 413` with `lambda = 780`;
`encrypt (65, 17, 3233) = 2790` and `decrypt (2790, 413, 3233) = 65`, and
the run `display_num (65, 61, 53, 17)` passes every assertion. -/
theorem wikipedia_example :
    rsa_keys 61 53 17 = .ok (3233, 413) ∧ rsa_lambda 61 53 = 780 ∧
    encrypt 65 17 3233 = some 2790 ∧ decrypt 2790 413 3233 = some 65 ∧
    display_num 65 61 53 17 = .ok (2790, 65) := by
  decide

set_option maxRecDepth 100000 in
/-- Claim C10: for the large example given as decimal strings, `rsa_keys`
returns a key, all its assertions passing, and the message is recovered
exactly by `decrypt (encrypt (message, e, n), d, n)`; the numerals are
read without loss, and the modulus, the exponents and the message all lie
beyond the range of a 64-bit word. -/
theorem mersenne_example :
    mpz_init_set_str "162259276829213363391578010288127" = 2 ^ 107 - 1 ∧
    mpz_init_set_str "618970019642690137449562111" = 2 ^ 89 - 1 ∧
    mpz_init_set_str "170141183460469231731687303715884105727" = 2 ^ 127 - 1 ∧
    mpz_init_set_str "1111119999999999911111111" = 1111119999999999911111111 ∧
    rsa_keys 162259276829213363391578010288127 618970019642690137449562111
        170141183460469231731687303715884105727
      = .ok (100433627766186892221372630609062766858404681029709092356097,
          3657039001231255831864961573957761009700584565032147969753) ∧
    encrypt 1111119999999999911111111 170141183460469231731687303715884105727
        100433627766186892221372630609062766858404681029709092356097
      = some 39068001865414857338873147084704168762917331927953566724461 ∧
    decrypt 39068001865414857338873147084704168762917331927953566724461
        3657039001231255831864961573957761009700584565032147969753
        100433627766186892221372630609062766858404681029709092356097
      = some 1111119999999999911111111 ∧
    display_str "1111119999999999911111111" "162259276829213363391578010288127"
        "618970019642690137449562111" "170141183460469231731687303715884105727"
      = .ok (39068001865414857338873147084704168762917331927953566724461,
          1111119999999999911111111) ∧
    (2 : Int) ^ 64 < 1111119999999999911111111 ∧
    (2 : Int) ^ 64 < 3657039001231255831864961573957761009700584565032147969753 := by
  decide

/-! ## Further properties used by the claims -/

/-- Every result of `mpz_powm` is a reduced residue of a positive modulus. -/
theorem mpz_powm_range (base exp mod c : Int) (hmod : 0 < mod)
    (h : mpz_powm base exp mod = some c) : 0 ≤ c ∧ c < mod := by
  have hne : mod ≠ 0 := ne_of_gt hmod
  have hone : (1 % mod) % mod = 1 % mod := Int.emod_emod_of_dvd _ (dvd_refl mod)
  unfold mpz_powm at h
  rw [if_neg hne] at h
  by_cases hexp : 0 ≤ exp
  · rw [if_pos hexp, powmLoop_eq _ _ _ _ _ (le_refl _) hone] at h
    injection h with h
    subst h
    exact ⟨Int.emod_nonneg _ hne, Int.emod_lt_of_pos _ hmod⟩
  · rw [if_neg hexp] at h
    cases hinv : mpz_invert base mod with
    | none => rw [hinv] at h; cases h
    | some inv =>
      rw [hinv] at h
      simp only at h
      rw [powmLoop_eq _ _ _ _ _ (le_refl _) hone] at h
      injection h with h
      subst h
      exact ⟨Int.emod_nonneg _ hne, Int.emod_lt_of_pos _ hmod⟩

/-- Round trip of an arbitrary message through `encrypt` and `decrypt` for
distinct primes and a pair of exponents whose product is congruent to one
modulo `lcm (p - 1, q - 1)`: the message comes back reduced modulo
`p * q`. -/
theorem roundtrip_mod_of_inverse (p q : Nat) (hp : p.Prime) (hq : q.Prime) (hne : p ≠ q)
    (e d : Int) (he : 0 ≤ e) (hd : 0 ≤ d)
    (hed : e * d % (Nat.lcm (p - 1) (q - 1) : Nat) = 1) (m : Int) :
    ∃ c, encrypt m e ((p : Int) * (q : Int)) = some c ∧
      0 ≤ c ∧ c < (p : Int) * (q : Int) ∧
      decrypt c d ((p : Int) * (q : Int)) = some (m % ((p : Int) * (q : Int))) := by
  have hpos : 0 < (p : Int) * (q : Int) := by
    have := hp.pos
    have := hq.pos
    positivity
  have hn : (p : Int) * (q : Int) ≠ 0 := ne_of_gt hpos
  obtain ⟨e', rfl⟩ := Int.eq_ofNat_of_zero_le he
  obtain ⟨d', rfl⟩ := Int.eq_ofNat_of_zero_le hd
  refine ⟨m ^ e' % ((p : Int) * (q : Int)), mpz_powm_natCast m e' _ hn,
    Int.emod_nonneg _ hn, Int.emod_lt_of_pos _ hpos, ?_⟩
  unfold decrypt
  rw [mpz_powm_natCast _ d' _ hn]
  congr 1
  have hk : (e' * d') % Nat.lcm (p - 1) (q - 1) = 1 := by exact_mod_cast hed
  have h1 : (m ^ e' % ((p : Int) * (q : Int))) ^ d' ≡ m ^ (e' * d') [ZMOD (p : Int) * (q : Int)] := by
    rw [pow_mul]
    exact (Int.mod_modEq _ _).pow _
  exact h1.trans (pow_modEq_self_of_primes p q hp hq hne (e' * d') hk m)

/-- A unit modulo `p * q` raised to a multiple of `r - 1` is congruent to
one modulo the prime factor `r`. -/
theorem pow_modEq_one_of_prime (r : Nat) (hr : r.Prime) (l : Nat) (hl : r - 1 ∣ l)
    (a : Int) (ha : ¬ (r : Int) ∣ a) : a ^ l ≡ 1 [ZMOD (r : Int)] := by
  haveI : Fact r.Prime := ⟨hr⟩
  rw [← ZMod.intCast_eq_intCast_iff]
  push_cast
  have hne : (a : ZMod r) ≠ 0 := by
    intro h
    exact ha ((ZMod.intCast_zmod_eq_zero_iff_dvd a r).mp h)
  obtain ⟨c, hc⟩ := hl
  rw [hc, pow_mul, ZMod.pow_card_sub_one_eq_one hne, one_pow]

/-- An exponent that sends every unit modulo `p * q` to one is a multiple of
`p - 1`: a primitive root modulo `p` lifts to a unit modulo `p * q`. -/
theorem pred_dvd_of_forall_pow (p q : Nat) (hp : p.Prime) (hq : q.Prime) (hne : p ≠ q)
    (k : Nat)
    (h : ∀ a : Int, Int.gcd a ((p : Int) * (q : Int)) = 1 →
      a ^ k % ((p : Int) * (q : Int)) = 1) : p - 1 ∣ k := by
  haveI : Fact p.Prime := ⟨hp⟩
  obtain ⟨g, hg⟩ := IsCyclic.exists_generator (α := (ZMod p)ˣ)
  have hcop : Nat.Coprime p q := (Nat.coprime_primes hp hq).mpr hne
  obtain ⟨x, hxp, hxq⟩ := Nat.chineseRemainder hcop (g : ZMod p).val 1
  have hxg : ((x : Nat) : ZMod p) = (g : ZMod p) := by
    have := (ZMod.eq_iff_modEq_nat p).mpr hxp
    rw [this, ZMod.natCast_zmod_val]
  have hx1 : Nat.Coprime x p := by
    rw [Nat.coprime_comm, Nat.Prime.coprime_iff_not_dvd hp]
    intro hdvd
    have h0 : ((x : Nat) : ZMod p) = 0 := (ZMod.natCast_zmod_eq_zero_iff_dvd x p).mpr hdvd
    rw [hxg] at h0
    exact g.ne_zero h0
  have hx2 : Nat.Coprime x q := by
    have := hxq.gcd_eq
    simpa [Nat.Coprime] using this
  have hgcd : Int.gcd (x : Int) ((p : Int) * (q : Int)) = 1 := by
    have : Nat.Coprime x (p * q) := Nat.Coprime.mul_right hx1 hx2
    have e : ((p : Int) * (q : Int)) = ((p * q : Nat) : Int) := by push_cast; rfl
    rw [e, Int.gcd_natCast_natCast]
    exact this
  have hpow := h x hgcd
  have hpq : (1 : Int) < (p : Int) * (q : Int) := by
    have h2p : (2 : Int) ≤ p := by exact_mod_cast hp.two_le
    have h2q : (2 : Int) ≤ q := by exact_mod_cast hq.two_le
    nlinarith
  have hmod : (x : Int) ^ k ≡ 1 [ZMOD (p : Int) * (q : Int)] := by
    show (x : Int) ^ k % ((p : Int) * (q : Int)) = 1 % ((p : Int) * (q : Int))
    rw [hpow, Int.emod_eq_of_lt (by decide) hpq]
  have hmodp : (x : Int) ^ k ≡ 1 [ZMOD (p : Int)] := Int.ModEq.of_mul_right _ hmod
  have hz : ((g : ZMod p)) ^ k = 1 := by
    have := (ZMod.intCast_eq_intCast_iff _ _ p).mpr hmodp
    push_cast at this
    rwa [hxg] at this
  have hgk : g ^ k = 1 := by
    apply Units.ext
    simpa using hz
  have hord : orderOf g ∣ k := orderOf_dvd_of_pow_eq_one hgk
  have hcard : orderOf g = p - 1 := by
    rw [orderOf_eq_card_of_forall_mem_zpowers hg, Nat.card_eq_fintype_card, ZMod.card_units]
  rwa [hcard] at hord

/-- Claim C11: for the key `n = 323`, `e = 5`, `d = 29` supplied by `main`
and the message 123, `decrypt (encrypt (123, 5, 323), 29, 323) = 123`, the
ciphertext being 225, and the run of `display_gmp` passes its assertion. -/
theorem twitter_example :
    encrypt 123 5 323 = some 225 ∧ decrypt 225 29 323 = some 123 ∧
    display_gmp 123 323 5 29 = .ok (225, 123) := by
  decide

/-- Claim C12: for every base `m`, zero included, and every modulus
`n > 1`, the modular exponentiation with exponent 0 returns 1:
`encrypt (m, 0, n) = 1`. -/
theorem encrypt_exponent_zero (m n : Int) (hn : 1 < n) : encrypt m 0 n = some 1 := by
  have h := mpz_powm_natCast m 0 n (by omega)
  have hone : (1 : Int) % n = 1 := Int.emod_eq_of_lt (by decide) hn
  simpa [encrypt, hone] using h

/-- Claim C12 at the base 0 and the modulus 3233. -/
theorem encrypt_exponent_zero_witness : encrypt 0 0 3233 = some 1 :=
  encrypt_exponent_zero 0 3233 (by decide)

/-- Claim C13, as amended: for every key `(n, e, d)` derived by `rsa_keys`
from distinct primes `p`, `q` and a valid `e`, and every message `m >= n`,
`decrypt (encrypt (m, e, n), d, n) = m mod n`, which differs from `m`. -/
theorem rsa_roundtrip_reduces_message (p q : Nat) (e : Int)
    (hp : p.Prime) (hq : q.Prime) (hne : p ≠ q) (h1 : 1 < e)
    (h2 : e < (Int.lcm ((p : Int) - 1) ((q : Int) - 1) : Nat))
    (h3 : Int.gcd e (Int.lcm ((p : Int) - 1) ((q : Int) - 1) : Nat) = 1) :
    ∃ n d, rsa_keys p q e = .ok (n, d) ∧
      ∀ m : Int, n ≤ m →
        ∃ c, encrypt m e n = some c ∧ decrypt c d n = some (m % n) ∧ m % n ≠ m := by
  rw [← rsa_lambda_eq] at h2 h3
  obtain ⟨d, hk, hd0, _, hed⟩ := rsa_keys_of_valid p q e h1 h2 h3
  refine ⟨(p : Int) * (q : Int), d, hk, ?_⟩
  intro m hm
  rw [rsa_lambda_eq, lcm_pred_cast p q hp.pos hq.pos] at hed
  obtain ⟨c, hc, _, _, hdec⟩ :=
    roundtrip_mod_of_inverse p q hp hq hne e d (by omega) hd0 hed m
  refine ⟨c, hc, hdec, ?_⟩
  have hpos : 0 < (p : Int) * (q : Int) := by
    have := hp.pos
    have := hq.pos
    positivity
  have hlt : m % ((p : Int) * (q : Int)) < (p : Int) * (q : Int) := Int.emod_lt_of_pos _ hpos
  omega

/-- Claim C13, as amended, at the primes 61 and 53 with the exponent 17. -/
theorem rsa_roundtrip_reduces_message_witness :
    ∃ n d, rsa_keys ((61 : Nat) : Int) ((53 : Nat) : Int) 17 = .ok (n, d) ∧
      ∀ m : Int, n ≤ m →
        ∃ c, encrypt m 17 n = some c ∧ decrypt c d n = some (m % n) ∧ m % n ≠ m :=
  rsa_roundtrip_reduces_message 61 53 17 (by norm_num) (by norm_num) (by decide)
    (by decide) (by decide) (by decide)

/-- Claim C13 fails as stated when the two primes are equal: for
`p = q = 5` and `e = 3` the key is `n = 25`, `d = 3`, and the message
`27 >= n` comes back as 12, which is not `27 mod 25 = 2`. -/
theorem rsa_large_message_equal_primes_fails :
    Nat.Prime 5 ∧ (1 : Int) < 3 ∧
    (3 : Int) < (Int.lcm (((5 : Nat) : Int) - 1) (((5 : Nat) : Int) - 1) : Nat) ∧
    Int.gcd 3 (Int.lcm (((5 : Nat) : Int) - 1) (((5 : Nat) : Int) - 1) : Nat) = 1 ∧
    rsa_keys ((5 : Nat) : Int) ((5 : Nat) : Int) 3 = .ok (25, 3) ∧
    (25 : Int) ≤ 27 ∧
    encrypt 27 3 25 = some 8 ∧ decrypt 8 3 25 = some 12 ∧
    (27 : Int) % 25 = 2 ∧ decrypt 8 3 25 ≠ some (27 % 25) := by
  refine ⟨by norm_num, by decide, by decide, by decide, by decide, by decide, by decide,
    by decide, by decide, by decide⟩

/-- Claim C14: `rsa_keys` does not verify primality.  For the composite
`p = 4` with `q = 7` and `e = 5` every assertion passes, the key is
`n = 28`, `d = 5` with `(e * d) mod lcm (p - 1, q - 1) = 1`, and the
message `2 < n` is not recovered: it encrypts to 4, which decrypts to 16. -/
theorem composite_factor_example :
    ¬ Nat.Prime 4 ∧ rsa_keys 4 7 5 = .ok (28, 5) ∧
    (5 * 5 : Int) % (Int.lcm ((4 : Int) - 1) ((7 : Int) - 1) : Nat) = 1 ∧
    (0 : Int) ≤ 2 ∧ (2 : Int) < 28 ∧
    encrypt 2 5 28 = some 4 ∧ decrypt 4 5 28 = some 16 ∧ (16 : Int) ≠ 2 ∧
    display_gmp 2 28 5 5 = .failed .decryptedNotOriginal := by
  refine ⟨by norm_num, by decide, by decide, by decide, by decide, by decide, by decide,
    by decide, by decide⟩

set_option maxRecDepth 100000 in
/-- Claim C15: each of the five remaining small examples of `main` passes
every assertion, `rsa_keys` returning a key and the decrypted value being
the original message, and the whole program runs to its end and returns
0. -/
theorem small_examples_pass :
    rsa_keys 13 19 17 = .ok (247, 17) ∧
    display_num 123 13 19 17 = .ok (93, 123) ∧
    rsa_keys 541 461 107 = .ok (249401, 4643) ∧
    display_num 67890 541 461 107 = .ok (53143, 67890) ∧
    rsa_keys 1181 929 173 = .ok (1097149, 11077) ∧
    display_num 123456 1181 929 173 = .ok (921777, 123456) ∧
    rsa_keys 1181 929 1987 = .ok (1097149, 89003) ∧
    display_num 123456 1181 929 1987 = .ok (1083174, 123456) ∧
    rsa_keys 1181 929 17 = .ok (1097149, 241553) ∧
    display_num 123456 1181 929 17 = .ok (626045, 123456) ∧
    main = .ok 0 := by
  decide

/-- Claim C16: for all distinct primes `p` and `q` the value
`lambda = lcm (p - 1, q - 1)` computed by `rsa_keys` is the Carmichael
function of `n = p * q`: it is positive, `a ^ lambda mod n = 1` for every
`a` coprime to `n`, and no smaller positive exponent has that property. -/
theorem rsa_lambda_carmichael (p q : Nat) (hp : p.Prime) (hq : q.Prime) (hne : p ≠ q) :
    ∃ L : Nat, rsa_lambda p q = (L : Int) ∧ 0 < L ∧
      (∀ a : Int, Int.gcd a ((p : Int) * (q : Int)) = 1 →
        a ^ L % ((p : Int) * (q : Int)) = 1) ∧
      ∀ k : Nat, 0 < k →
        (∀ a : Int, Int.gcd a ((p : Int) * (q : Int)) = 1 →
          a ^ k % ((p : Int) * (q : Int)) = 1) → L ≤ k := by
  have hpq : (1 : Int) < (p : Int) * (q : Int) := by
    have h2p : (2 : Int) ≤ p := by exact_mod_cast hp.two_le
    have h2q : (2 : Int) ≤ q := by exact_mod_cast hq.two_le
    nlinarith
  refine ⟨Nat.lcm (p - 1) (q - 1), ?_, ?_, ?_, ?_⟩
  · rw [rsa_lambda_eq, lcm_pred_cast p q hp.pos hq.pos]
  · have h1 : 0 < p - 1 := by have := hp.two_le; omega
    have h2 : 0 < q - 1 := by have := hq.two_le; omega
    exact Nat.lcm_pos h1 h2
  · intro a ha
    have hndvd : ∀ r : Nat, (r : Int) ∣ (p : Int) * (q : Int) → r ≠ 1 → ¬ (r : Int) ∣ a := by
      intro r hr hr1 hra
      have h := Int.dvd_gcd hra hr
      rw [ha] at h
      have h' : r ∣ 1 := by exact_mod_cast h
      exact hr1 (Nat.dvd_one.mp h')
    have e1 := pow_modEq_one_of_prime p hp _ (Nat.dvd_lcm_left (p - 1) (q - 1)) a
      (hndvd p (dvd_mul_right _ _) hp.one_lt.ne')
    have e2 := pow_modEq_one_of_prime q hq _ (Nat.dvd_lcm_right (p - 1) (q - 1)) a
      (hndvd q (dvd_mul_left _ _) hq.one_lt.ne')
    have hcop : (p : Int).natAbs.Coprime (q : Int).natAbs := by
      simpa using (Nat.coprime_primes hp hq).mpr hne
    have e3 : a ^ Nat.lcm (p - 1) (q - 1) ≡ 1 [ZMOD (p : Int) * (q : Int)] :=
      (Int.modEq_and_modEq_iff_modEq_mul hcop).mp ⟨e1, e2⟩
    have e4 : a ^ Nat.lcm (p - 1) (q - 1) % ((p : Int) * (q : Int))
        = 1 % ((p : Int) * (q : Int)) := e3
    rw [e4, Int.emod_eq_of_lt (by decide) hpq]
  · intro k hk h
    have d1 : p - 1 ∣ k := pred_dvd_of_forall_pow p q hp hq hne k h
    have d2 : q - 1 ∣ k := by
      apply pred_dvd_of_forall_pow q p hq hp (Ne.symm hne) k
      intro a ha
      rw [mul_comm (q : Int) (p : Int)] at ha ⊢
      exact h a ha
    exact Nat.le_of_dvd hk (Nat.lcm_dvd d1 d2)

/-- Claim C16 at the primes 61 and 53. -/
theorem rsa_lambda_carmichael_witness :
    ∃ L : Nat, rsa_lambda ((61 : Nat) : Int) ((53 : Nat) : Int) = (L : Int) ∧ 0 < L ∧
      (∀ a : Int, Int.gcd a ((((61 : Nat) : Int)) * ((53 : Nat) : Int)) = 1 →
        a ^ L % ((((61 : Nat) : Int)) * ((53 : Nat) : Int)) = 1) ∧
      ∀ k : Nat, 0 < k →
        (∀ a : Int, Int.gcd a ((((61 : Nat) : Int)) * ((53 : Nat) : Int)) = 1 →
          a ^ k % ((((61 : Nat) : Int)) * ((53 : Nat) : Int)) = 1) → L ≤ k :=
  rsa_lambda_carmichael 61 53 (by norm_num) (by norm_num) (by decide)

/-- Claim C17: whenever `rsa_keys (p, q, e)` returns a key, its private
exponent `d` lies in the range `0 < d < lcm (p - 1, q - 1)`, satisfies
`(e * d) mod lcm (p - 1, q - 1) = 1`, and is the only integer of that
range which does. -/
theorem rsa_keys_private_exponent_unique (p q e n d : Int)
    (h : rsa_keys p q e = .ok (n, d)) :
    0 < d ∧ d < (Int.lcm (p - 1) (q - 1) : Nat) ∧
    e * d % (Int.lcm (p - 1) (q - 1) : Nat) = 1 ∧
    ∀ d' : Int, 0 < d' → d' < (Int.lcm (p - 1) (q - 1) : Nat) →
      e * d' % (Int.lcm (p - 1) (q - 1) : Nat) = 1 → d' = d := by
  rw [← rsa_lambda_eq]
  rcases rsa_keys_cases p q e with ⟨_, hf⟩ | ⟨_, _, hf⟩ | ⟨_, _, _, hf⟩ |
    ⟨h1, h2, _, d0, hd, hd0, hdlt, hed⟩
  · rw [hf] at h; cases h
  · rw [hf] at h; cases h
  · rw [hf] at h; cases h
  · rw [hd] at h
    injection h with h
    have hdd : d0 = d := congrArg Prod.snd h
    subst hdd
    have hone : (1 : Int) % rsa_lambda p q = 1 := Int.emod_eq_of_lt (by decide) (by omega)
    have hpos : 0 < d0 := by
      rcases lt_or_eq_of_le hd0 with hlt | heq
      · exact hlt
      · rw [← heq] at hed
        simp at hed
    refine ⟨hpos, hdlt, hed, ?_⟩
    intro d' hd'0 hd'lt hed'
    have e1 : e * d0 ≡ 1 [ZMOD rsa_lambda p q] := by
      show e * d0 % rsa_lambda p q = 1 % rsa_lambda p q
      rw [hed, hone]
    have e2 : e * d' ≡ 1 [ZMOD rsa_lambda p q] := by
      show e * d' % rsa_lambda p q = 1 % rsa_lambda p q
      rw [hed', hone]
    have e3 : d' ≡ d0 [ZMOD rsa_lambda p q] := by
      have a1 : d' * (e * d0) ≡ d' * 1 [ZMOD rsa_lambda p q] := (Int.ModEq.refl d').mul e1
      have a2 : e * d' * d0 ≡ 1 * d0 [ZMOD rsa_lambda p q] := e2.mul (Int.ModEq.refl d0)
      have a3 : d' * (e * d0) = e * d' * d0 := by ring
      rw [a3, mul_one] at a1
      rw [one_mul] at a2
      exact a1.symm.trans a2
    have e4 : d' % rsa_lambda p q = d0 % rsa_lambda p q := e3
    rwa [Int.emod_eq_of_lt (le_of_lt hd'0) hd'lt, Int.emod_eq_of_lt hd0 hdlt] at e4

/-- Claim C17 at `p = 61`, `q = 53`, `e = 17`, where `d = 413`. -/
theorem rsa_keys_private_exponent_unique_witness :
    (0 : Int) < 413 ∧ (413 : Int) < (Int.lcm ((61 : Int) - 1) ((53 : Int) - 1) : Nat) ∧
    (17 : Int) * 413 % (Int.lcm ((61 : Int) - 1) ((53 : Int) - 1) : Nat) = 1 ∧
    ∀ d' : Int, 0 < d' → d' < (Int.lcm ((61 : Int) - 1) ((53 : Int) - 1) : Nat) →
      17 * d' % (Int.lcm ((61 : Int) - 1) ((53 : Int) - 1) : Nat) = 1 → d' = 413 :=
  rsa_keys_private_exponent_unique 61 53 17 3233 413 (by decide)

/-- Claim C18: for every key `(n, e, d)` derived by `rsa_keys` from distinct
primes `p`, `q` and a valid `e`, and every `c` with `0 <= c < n`, both
`encrypt (decrypt (c, d, n), e, n) = c` and
`decrypt (encrypt (c, e, n), d, n) = c`, the intermediate values being
residues `0 .. n - 1` again: the two maps are mutually inverse
permutations of the residues. -/
theorem rsa_decrypt_encrypt_inverse (p q : Nat) (e : Int)
    (hp : p.Prime) (hq : q.Prime) (hne : p ≠ q) (h1 : 1 < e)
    (h2 : e < (Int.lcm ((p : Int) - 1) ((q : Int) - 1) : Nat))
    (h3 : Int.gcd e (Int.lcm ((p : Int) - 1) ((q : Int) - 1) : Nat) = 1) :
    ∃ n d, rsa_keys p q e = .ok (n, d) ∧
      ∀ c : Int, 0 ≤ c → c < n →
        (∃ x, decrypt c d n = some x ∧ 0 ≤ x ∧ x < n ∧ encrypt x e n = some c) ∧
        (∃ y, encrypt c e n = some y ∧ 0 ≤ y ∧ y < n ∧ decrypt y d n = some c) := by
  rw [← rsa_lambda_eq] at h2 h3
  obtain ⟨d, hk, hd0, _, hed⟩ := rsa_keys_of_valid p q e h1 h2 h3
  refine ⟨(p : Int) * (q : Int), d, hk, ?_⟩
  intro c hc0 hcn
  rw [rsa_lambda_eq, lcm_pred_cast p q hp.pos hq.pos] at hed
  have hde : d * e % (Nat.lcm (p - 1) (q - 1) : Nat) = 1 := by rwa [mul_comm]
  have hc : c % ((p : Int) * (q : Int)) = c := Int.emod_eq_of_lt hc0 hcn
  constructor
  · obtain ⟨x, hx, hx0, hxn, hback⟩ :=
      roundtrip_mod_of_inverse p q hp hq hne d e hd0 (by omega) hde c
    rw [hc] at hback
    exact ⟨x, hx, hx0, hxn, hback⟩
  · obtain ⟨y, hy, hy0, hyn, hback⟩ :=
      roundtrip_mod_of_inverse p q hp hq hne e d (by omega) hd0 hed c
    rw [hc] at hback
    exact ⟨y, hy, hy0, hyn, hback⟩

/-- Claim C18 at the primes 61 and 53 with the exponent 17. -/
theorem rsa_decrypt_encrypt_inverse_witness :
    ∃ n d, rsa_keys ((61 : Nat) : Int) ((53 : Nat) : Int) 17 = .ok (n, d) ∧
      ∀ c : Int, 0 ≤ c → c < n →
        (∃ x, decrypt c d n = some x ∧ 0 ≤ x ∧ x < n ∧ encrypt x 17 n = some c) ∧
        (∃ y, encrypt c 17 n = some y ∧ 0 ≤ y ∧ y < n ∧ decrypt y d n = some c) :=
  rsa_decrypt_encrypt_inverse 61 53 17 (by norm_num) (by norm_num) (by decide)
    (by decide) (by decide) (by decide)

/-- Claim C19: for every modulus `n >= 1`, exponent `e` and messages `a`,
`b`, textbook encryption is multiplicative:
`encrypt ((a * b) mod n, e, n) = (encrypt (a, e, n) * encrypt (b, e, n)) mod n`. -/
theorem encrypt_multiplicative (a b : Int) (e : Nat) (n : Int) (hn : 1 ≤ n) :
    ∃ ca cb, encrypt a e n = some ca ∧ encrypt b e n = some cb ∧
      encrypt (a * b % n) e n = some (ca * cb % n) := by
  have hne : n ≠ 0 := by omega
  refine ⟨a ^ e % n, b ^ e % n, mpz_powm_natCast a e n hne, mpz_powm_natCast b e n hne, ?_⟩
  unfold encrypt
  rw [mpz_powm_natCast _ e n hne]
  congr 1
  have h1 : (a * b % n) ^ e ≡ a ^ e * b ^ e [ZMOD n] := by
    rw [← mul_pow]
    exact (Int.mod_modEq _ _).pow _
  have h2 : a ^ e % n * (b ^ e % n) ≡ a ^ e * b ^ e [ZMOD n] :=
    (Int.mod_modEq _ _).mul (Int.mod_modEq _ _)
  exact h1.trans h2.symm

/-- Claim C19 at `a = 65`, `b = 123`, `e = 17`, `n = 3233`. -/
theorem encrypt_multiplicative_witness :
    ∃ ca cb, encrypt 65 ((17 : Nat) : Int) 3233 = some ca ∧
      encrypt 123 ((17 : Nat) : Int) 3233 = some cb ∧
      encrypt (65 * 123 % 3233) ((17 : Nat) : Int) 3233 = some (ca * cb % 3233) :=
  encrypt_multiplicative 65 123 17 3233 (by decide)

/-- Claim C20: for every message `m`, exponent `e` and modulus `n >= 1`,
`encrypt (m, e, n)` is a canonical residue, `0 <= encrypt (m, e, n) < n`,
and so is `decrypt (m, e, n)`; a ciphertext is therefore a message for the
same modulus again, and encrypting it gives a residue once more.  The
bound holds for every result of the two functions, whatever the sign of
the exponent. -/
theorem encrypt_decrypt_range (m : Int) (e : Nat) (n : Int) (hn : 1 ≤ n) :
    (∃ c, encrypt m e n = some c ∧ 0 ≤ c ∧ c < n ∧
      ∃ c2, encrypt c e n = some c2 ∧ 0 ≤ c2 ∧ c2 < n) ∧
    (∃ c, decrypt m e n = some c ∧ 0 ≤ c ∧ c < n) ∧
    (∀ x c : Int, encrypt m x n = some c → 0 ≤ c ∧ c < n) ∧
    (∀ x c : Int, decrypt m x n = some c → 0 ≤ c ∧ c < n) := by
  have hne : n ≠ 0 := by omega
  have hpos : 0 < n := by omega
  have hr : ∀ b : Int, mpz_powm b e n = some (b ^ e % n) ∧ 0 ≤ b ^ e % n ∧ b ^ e % n < n :=
    fun b => ⟨mpz_powm_natCast b e n hne, Int.emod_nonneg _ hne, Int.emod_lt_of_pos _ hpos⟩
  refine ⟨⟨m ^ e % n, (hr m).1, (hr m).2.1, (hr m).2.2, _, (hr _).1, (hr _).2.1, (hr _).2.2⟩,
    ⟨m ^ e % n, (hr m).1, (hr m).2.1, (hr m).2.2⟩, ?_, ?_⟩
  · intro x c h
    exact mpz_powm_range m x n c hpos h
  · intro x c h
    exact mpz_powm_range m x n c hpos h

/-- Claim C20 at `m = 65`, `e = 17`, `n = 3233`. -/
theorem encrypt_decrypt_range_witness :
    (∃ c, encrypt 65 ((17 : Nat) : Int) 3233 = some c ∧ 0 ≤ c ∧ c < 3233 ∧
      ∃ c2, encrypt c ((17 : Nat) : Int) 3233 = some c2 ∧ 0 ≤ c2 ∧ c2 < 3233) ∧
    (∃ c, decrypt 65 ((17 : Nat) : Int) 3233 = some c ∧ 0 ≤ c ∧ c < 3233) ∧
    (∀ x c : Int, encrypt 65 x 3233 = some c → 0 ≤ c ∧ c < 3233) ∧
    (∀ x c : Int, decrypt 65 x 3233 = some c → 0 ≤ c ∧ c < 3233) :=
  encrypt_decrypt_range 65 17 3233 (by decide)

end RSA
